import Mathlib

/-!
Shallow embedding of `src/search/greedy/huffman.cc` (AlgoXY repository):
Huffman coding — histogram, greedy tree construction, code table, encode,
decode — together with proofs of the specification claims about it.

The C++ `huffman` function compares `Node*` pointers (`ts[i] < min(ts[n-1],
ts[n-1])` and `ts[j] < ts[k]` operate on raw pointers, not on the pointed-to
`Node` objects, so the user-defined `Node::operator<` is never invoked).  The
outcome of a relational comparison of pointers to unrelated heap objects is
determined by the (unspecified) memory layout.  The embedding therefore keeps
the heap address of every allocation next to the node and parameterises the
construction by the address-order oracle `altb : Nat → Nat → Bool` that the
layout induces.  Theorems quantified over `altb` hold for every possible
layout; concrete oracles exhibit layouts on which the greedy selection goes
wrong.
-/

namespace Huffman

open scoped List

/-- Huffman tree node (`struct Node`).  The C++ struct carries a weight, a
character and two child pointers; `leaf` models the nodes built by `leaf()`
(both children `NULL`) and `node` those built by `merge()` (both children
set) — the only two allocation sites in the program, so every tree is either
a leaf or an internal node with exactly two children. -/
inductive Node where
  | leaf (c : Char) (w : Nat)
  | node (w : Nat) (left : Node) (right : Node)
deriving DecidableEq, Repr

/-- The weight field `n->w`. -/
def weight : Node → Nat
  | .leaf _ w => w
  | .node w _ _ => w

/-- `merge(a, b)`: fresh internal node, `left = a`, `right = b`, weight the
sum of the two weights. -/
def merge (a b : Node) : Node := .node (weight a + weight b) a b

/-- A node together with the heap address of its allocation (`Node*`). -/
abbrev NP := Node × Nat

/-- Default for the (always in-bounds) vector reads of the model. -/
def dflt : NP := (Node.leaf ' ' 0, 0)

/-- Pointer comparison `p < q` on two `Node*` values: it looks only at the
two addresses, through the memory-layout oracle `altb`. -/
def npLt (altb : Nat → Nat → Bool) (p q : NP) : Bool := altb p.2 q.2

/-- `std::min(a, b)` on two pointers: `b < a ? b : a`. -/
def minNP (altb : Nat → Nat → Bool) (p q : NP) : NP :=
  if npLt altb q p then q else p

/-- `std::swap(ts[i], ts[j])` on the vector slots `i` and `j`. -/
def listSwap (ts : List NP) (i j : Nat) : List NP :=
  (ts.set i (ts.getD j dflt)).set j (ts.getD i dflt)

/-- `swap(ts, i, j, k)` from huffman.cc:
`if (ts[j] < ts[k]) swap(ts[i], ts[k]); else swap(ts[i], ts[j]);`
(again a comparison of raw pointers). -/
def swap3 (altb : Nat → Nat → Bool) (ts : List NP) (i j k : Nat) : List NP :=
  if npLt altb (ts.getD j dflt) (ts.getD k dflt) then listSwap ts i k
  else listSwap ts i j

/-- The scan
`for (int i = n - 3; i >= 0; --i) if (ts[i] < min(ts[n-1], ts[n-1])) swap(ts, i, n-1, n-2);`
`cnt` is the number of iterations still to run; the iteration that starts
with counter `cnt + 1` works on index `i = cnt`, so the indices processed
are `n-3, n-4, …, 0`, exactly as in the C++ loop. -/
def scanIter (altb : Nat → Nat → Bool) (n : Nat) : Nat → List NP → List NP
  | 0, ts => ts
  | cnt + 1, ts =>
    scanIter altb n cnt
      (if npLt altb (ts.getD cnt dflt)
            (minNP altb (ts.getD (n - 1) dflt) (ts.getD (n - 1) dflt))
       then swap3 altb ts cnt (n - 1) (n - 2) else ts)

/-- One iteration of the `while` loop of `huffman`: run the scan, then
`ts[n-2] = merge(ts[n-1], ts[n-2]); ts.pop_back();`.  The merged node is a
fresh allocation and receives the next free address `fresh`. -/
def huffStep (altb : Nat → Nat → Bool) (fresh : Nat) (ts : List NP) : List NP :=
  let n := ts.length
  let ts1 := scanIter altb n (n - 2) ts
  (ts1.set (n - 2)
      (merge (ts1.getD (n - 1) dflt).1 (ts1.getD (n - 2) dflt).1, fresh)).take (n - 1)

/-- The `while ((n = ts.size()) > 1)` loop.  Every iteration shrinks the
vector by one, so `ts.length` iterations of fuel always suffice. -/
def huffmanLoop (altb : Nat → Nat → Bool) : Nat → Nat → List NP → List NP
  | 0, _, ts => ts
  | fuel + 1, fresh, ts =>
    if 1 < ts.length then huffmanLoop altb fuel (fresh + 1) (huffStep altb fresh ts)
    else ts

/-- `huffman(ts)`: run the loop, then `return ts.front();`.  `front()` on an
empty vector is undefined behavior — the model returns `none` there (there is
no emptiness check and no signaled error in the source). -/
def huffman (altb : Nat → Nat → Bool) (ts : List NP) : Option Node :=
  ((huffmanLoop altb ts.length ts.length ts).head?).map Prod.fst

/-- `CodeTab = map<char, string>`: a key-sorted association list from symbol
to bit-string; bit-strings are lists of characters, as in the source. -/
abbrev CodeTab := List (Char × List Char)

/-- The write side of `codes[c] = bits` on `std::map`: insert-or-assign,
keys kept sorted. -/
def mapInsert (c : Char) (v : List Char) : CodeTab → CodeTab
  | [] => [(c, v)]
  | (k, u) :: t =>
    if c = k then (k, v) :: t
    else if c < k then (c, v) :: (k, u) :: t
    else (k, u) :: mapInsert c v t

/-- The read side of `codes[c]` on `std::map`: a missing key yields the
default-constructed empty string.  (In `encode` the real `operator[]` also
inserts that empty string into its by-value copy of the map, which is not
observable in the returned bits.) -/
def mapFind (c : Char) : CodeTab → List Char
  | [] => []
  | (k, v) :: t => if c = k then v else mapFind c t

/-- `codetab(t, bits, codes)`: depth-first traversal, `"0"` on the left
branch, `"1"` on the right branch, record the accumulated bits at a leaf.
The C++ version mutates `codes` left-to-right; here the left result is
threaded into the right call. -/
def codetab : Node → List Char → CodeTab → CodeTab
  | .leaf c _, bits, codes => mapInsert c bits codes
  | .node _ l r, bits, codes => codetab r (bits ++ ['1']) (codetab l (bits ++ ['0']) codes)

/-- `codetable(t)`: `codetab(t, "", codes)` on an empty map. -/
def codetable (t : Node) : CodeTab := codetab t [] []

/-- `encode(codes, w)`: concatenate `codes[*it]` over the input in order. -/
def encode (codes : CodeTab) (w : List Char) : List Char :=
  w.foldl (fun bits c => bits ++ mapFind c codes) []

/-- The inner loop of `decode`: from the cursor `t`, consume one bit per
step while the cursor is internal, going left on `'0'` and right on any
other byte (`'0' == *it++ ? t->left : t->right`); stop at a leaf.  Running
out of bits at an internal node is an out-of-bounds `*it++` (undefined
behavior), modeled by `none`. -/
def decodeSym : Node → List Char → Option (Char × List Char)
  | .leaf c _, bits => some (c, bits)
  | .node _ l r, bits =>
    match bits with
    | [] => none
    | b :: bs => decodeSym (if b = '0' then l else r) bs

/-- The outer loop of `decode`: emit one symbol per completed root-to-leaf
walk until the bits are exhausted.  When the root itself is a leaf the C++
loop consumes no bits and never terminates on a non-empty input; the fuel
(one unit per emitted symbol, `bits.length` units in `decode`) turns that
divergence into `none`. -/
def decodeLoop (root : Node) : Nat → List Char → Option (List Char)
  | _, [] => some []
  | 0, _ :: _ => none
  | fuel + 1, b :: bs =>
    match decodeSym root (b :: bs) with
    | none => none
    | some (c, rest) => (decodeLoop root fuel rest).map (fun cs => c :: cs)

/-- `decode(root, bits)`. -/
def decode (root : Node) (bits : List Char) : Option (List Char) :=
  decodeLoop root bits.length bits

/-- `++hist[*it]` on `std::map<char,int>`: insert the key with count 1 or
bump the existing count, keys kept sorted. -/
def histInsert (c : Char) : List (Char × Nat) → List (Char × Nat)
  | [] => [(c, 1)]
  | (k, v) :: t =>
    if c = k then (k, v + 1) :: t
    else if c < k then (c, 1) :: (k, v) :: t
    else (k, v) :: histInsert c t

/-- `freq(w)`: histogram of the text. -/
def freq (w : List Char) : List (Char × Nat) :=
  w.foldl (fun h c => histInsert c h) []

/-- `nodes(hist)` allocates one leaf per histogram entry, in map (key)
order; the model hands the leaves the consecutive addresses `i, i+1, …`. -/
def nodesFrom : Nat → List (Char × Nat) → List NP
  | _, [] => []
  | i, (c, wt) :: t => (Node.leaf c wt, i) :: nodesFrom (i + 1) t

/-- `nodes(hist)`. -/
def nodes (hist : List (Char × Nat)) : List NP := nodesFrom 0 hist

/-- The symbols at the leaves of a tree, left to right. -/
def leafChars : Node → List Char
  | .leaf c _ => [c]
  | .node _ l r => leafChars l ++ leafChars r

/-- The (symbol, weight) pairs at the leaves of a tree, left to right. -/
def leafCW : Node → List (Char × Nat)
  | .leaf c w => [(c, w)]
  | .node _ l r => leafCW l ++ leafCW r

/-- All leaf symbols of a forest of nodes. -/
def forestChars (ts : List NP) : List Char :=
  (ts.map fun np => leafChars np.1).flatten

/-- Weight well-formedness: every internal node weighs the sum of its two
children. -/
def wfW : Node → Bool
  | .leaf _ _ => true
  | .node w l r => (w == weight l + weight r) && wfW l && wfW r

/-- Weighted path length contribution of a subtree rooted at depth `d`. -/
def wplFrom : Node → Nat → Nat
  | .leaf _ w, d => w * d
  | .node _ l r, d => wplFrom l (d + 1) + wplFrom r (d + 1)

/-- Total weighted path length: sum over leaves of weight × depth. -/
def wpl (t : Node) : Nat := wplFrom t 0

/-- The root-to-leaf path (as recorded by `codetab`) of the leftmost leaf
carrying `c`, if any. -/
def pathOf : Node → Char → Option (List Char)
  | .leaf c1 _, c => if c = c1 then some [] else none
  | .node _ l r, c =>
    match pathOf l c with
    | some p => some ('0' :: p)
    | none => (pathOf r c).map (fun p => '1' :: p)

/-- A memory layout on which no pointer comparison ever answers true. -/
def altbF : Nat → Nat → Bool := fun _ _ => false

/-- The layout in which later allocations get higher addresses. -/
def altbFwd : Nat → Nat → Bool := fun x y => decide (x < y)

/-- The layout in which later allocations get lower addresses. -/
def altbRev : Nat → Nat → Bool := fun x y => decide (y < x)

/-! ### List permutation lemmas for the in-place swaps of `huffman` -/

/-- Overwriting slot `m` with `x` while holding on to the old inhabitant is a
permutation step. -/
theorem cons_set_perm : ∀ (t : List NP) (m : Nat) (x : NP), m < t.length →
    t.getD m dflt :: t.set m x ~ x :: t := by
  intro t
  induction t with
  | nil => intro m x h; simp at h
  | cons y t ih =>
    intro m x h
    cases m with
    | zero =>
      simp only [List.getD_cons_zero, List.set_cons_zero]
      exact List.Perm.swap x y t
    | succ m =>
      have hm : m < t.length := by simpa using h
      simp only [List.getD_cons_succ, List.set_cons_succ]
      calc t.getD m dflt :: y :: t.set m x
          ~ y :: t.getD m dflt :: t.set m x := List.Perm.swap y (t.getD m dflt) (t.set m x)
        _ ~ y :: x :: t := (ih m x hm).cons y
        _ ~ x :: y :: t := List.Perm.swap x y t

/-- `std::swap(ts[i], ts[j])` permutes the vector. -/
theorem listSwap_perm : ∀ (l : List NP) (i j : Nat), i < l.length → j < l.length →
    i ≠ j → listSwap l i j ~ l := by
  intro l
  induction l with
  | nil => intro i j hi _ _; simp at hi
  | cons y t ih =>
    intro i j hi hj hij
    cases i with
    | zero =>
      cases j with
      | zero => exact absurd rfl hij
      | succ j =>
        have hj1 : j < t.length := by simpa using hj
        simp only [listSwap, List.getD_cons_succ, List.getD_cons_zero,
          List.set_cons_zero, List.set_cons_succ]
        exact cons_set_perm t j y hj1
    | succ i =>
      cases j with
      | zero =>
        have hi1 : i < t.length := by simpa using hi
        simp only [listSwap, List.getD_cons_succ, List.getD_cons_zero,
          List.set_cons_zero, List.set_cons_succ]
        exact cons_set_perm t i y hi1
      | succ j =>
        have hi1 : i < t.length := by simpa using hi
        have hj1 : j < t.length := by simpa using hj
        have hij1 : i ≠ j := by omega
        simp only [listSwap, List.getD_cons_succ, List.set_cons_succ]
        exact (ih i j hi1 hj1 hij1).cons y

theorem listSwap_length (l : List NP) (i j : Nat) :
    (listSwap l i j).length = l.length := by
  simp [listSwap]

theorem swap3_length (altb : Nat → Nat → Bool) (l : List NP) (i j k : Nat) :
    (swap3 altb l i j k).length = l.length := by
  unfold swap3; split <;> simp [listSwap]

theorem swap3_perm (altb : Nat → Nat → Bool) (l : List NP) (i j k : Nat)
    (hi : i < l.length) (hj : j < l.length) (hk : k < l.length)
    (hij : i ≠ j) (hik : i ≠ k) : swap3 altb l i j k ~ l := by
  unfold swap3; split
  · exact listSwap_perm l i k hi hk hik
  · exact listSwap_perm l i j hi hj hij

theorem scanIter_length (altb : Nat → Nat → Bool) (n : Nat) :
    ∀ (cnt : Nat) (ts : List NP), (scanIter altb n cnt ts).length = ts.length := by
  intro cnt
  induction cnt with
  | zero => intro ts; rfl
  | succ cnt ih =>
    intro ts
    rw [scanIter, ih]
    split
    · exact swap3_length altb ts cnt (n - 1) (n - 2)
    · rfl

theorem scanIter_perm (altb : Nat → Nat → Bool) (n : Nat) :
    ∀ (cnt : Nat) (ts : List NP), ts.length = n → cnt + 2 ≤ n →
      scanIter altb n cnt ts ~ ts := by
  intro cnt
  induction cnt with
  | zero => intro ts _ _; exact List.Perm.refl ts
  | succ cnt ih =>
    intro ts hlen hcnt
    rw [scanIter]
    split
    · have hp : swap3 altb ts cnt (n - 1) (n - 2) ~ ts :=
        swap3_perm altb ts cnt (n - 1) (n - 2) (by omega) (by omega) (by omega)
          (by omega) (by omega)
      exact (ih _ (by rw [swap3_length, hlen]) (by omega)).trans hp
    · exact ih ts hlen (by omega)

/-! ### Reading and replacing the last two vector slots -/

theorem getD_append_pen (init : List NP) (b a : NP) :
    (init ++ [b, a]).getD init.length dflt = b := by
  induction init with
  | nil => rfl
  | cons y t ih => simpa using ih

theorem getD_append_last (init : List NP) (b a : NP) :
    (init ++ [b, a]).getD (init.length + 1) dflt = a := by
  induction init with
  | nil => rfl
  | cons y t ih => simpa using ih

theorem set_take_append (init : List NP) (b a x : NP) :
    ((init ++ [b, a]).set init.length x).take (init.length + 1) = init ++ [x] := by
  induction init with
  | nil => rfl
  | cons y t ih => simpa using ih

/-- Every list of length at least two is `init ++ [b, a]`. -/
theorem eq_append_lastTwo (l : List NP) (h2 : 2 ≤ l.length) :
    ∃ init b a, l = init ++ [b, a] := by
  have hrr : l.reverse.reverse = l := List.reverse_reverse l
  cases hr : l.reverse with
  | nil =>
    have hn : l = [] := by rw [← hrr, hr]; rfl
    subst hn; simp at h2
  | cons x tr =>
    cases tr with
    | nil =>
      have hn : l = [x] := by rw [← hrr, hr]; rfl
      subst hn; simp at h2
    | cons y rest =>
      refine ⟨rest.reverse, y, x, ?_⟩
      rw [← hrr, hr]
      simp

/-! ### The effect of one iteration of the `while` loop -/

theorem huffStep_eq (altb : Nat → Nat → Bool) (fresh : Nat) (ts : List NP)
    (h2 : 2 ≤ ts.length) :
    ∃ init b a, scanIter altb ts.length (ts.length - 2) ts = init ++ [b, a] ∧
      (init ++ [b, a] : List NP) ~ ts ∧
      huffStep altb fresh ts = init ++ [(merge a.1 b.1, fresh)] := by
  have hlen : (scanIter altb ts.length (ts.length - 2) ts).length = ts.length :=
    scanIter_length altb ts.length (ts.length - 2) ts
  have hperm : scanIter altb ts.length (ts.length - 2) ts ~ ts :=
    scanIter_perm altb ts.length (ts.length - 2) ts rfl (by omega)
  obtain ⟨init, b, a, heq⟩ :=
    eq_append_lastTwo (scanIter altb ts.length (ts.length - 2) ts) (by omega)
  refine ⟨init, b, a, heq, heq ▸ hperm, ?_⟩
  have hil : init.length + 2 = ts.length := by
    have := hlen; rw [heq] at this; simpa using this
  have e1 : ts.length - 2 = init.length := by omega
  have e2 : ts.length - 1 = init.length + 1 := by omega
  simp only [huffStep]
  rw [heq, e1, e2, getD_append_pen, getD_append_last, set_take_append]

theorem huffStep_length (altb : Nat → Nat → Bool) (fresh : Nat) (ts : List NP)
    (h2 : 2 ≤ ts.length) :
    (huffStep altb fresh ts).length + 1 = ts.length := by
  obtain ⟨init, b, a, _, hperm, hstep⟩ := huffStep_eq altb fresh ts h2
  have hil : init.length + 2 = ts.length := by
    have := hperm.length_eq; simpa using this
  rw [hstep]; simp; omega

/-! ### Leaf multisets of forests -/

theorem forestChars_append (l1 l2 : List NP) :
    forestChars (l1 ++ l2) = forestChars l1 ++ forestChars l2 := by
  simp [forestChars]

theorem forestChars_perm {l1 l2 : List NP} (h : l1 ~ l2) :
    forestChars l1 ~ forestChars l2 :=
  (h.map _).flatten

theorem leafChars_merge (x y : Node) :
    leafChars (merge x y) = leafChars x ++ leafChars y := rfl

theorem huffStep_forest (altb : Nat → Nat → Bool) (fresh : Nat) (ts : List NP)
    (h2 : 2 ≤ ts.length) :
    forestChars (huffStep altb fresh ts) ~ forestChars ts := by
  obtain ⟨init, b, a, _, hperm, hstep⟩ := huffStep_eq altb fresh ts h2
  rw [hstep]
  have h1 : forestChars (init ++ [(merge a.1 b.1, fresh)]) ~ forestChars (init ++ [b, a]) := by
    rw [forestChars_append, forestChars_append]
    refine List.Perm.append_left (forestChars init) ?_
    simp only [forestChars, List.map_cons, List.map_nil, List.flatten_cons,
      List.flatten_nil, List.append_nil, leafChars_merge]
    exact List.perm_append_comm
  exact h1.trans (forestChars_perm hperm)

theorem wfW_merge (x y : Node) (hx : wfW x = true) (hy : wfW y = true) :
    wfW (merge x y) = true := by
  simp [merge, wfW, weight, hx, hy]

theorem huffStep_wf (altb : Nat → Nat → Bool) (fresh : Nat) (ts : List NP)
    (h2 : 2 ≤ ts.length) (hwf : ∀ q ∈ ts, wfW q.1 = true) :
    ∀ q ∈ huffStep altb fresh ts, wfW q.1 = true := by
  obtain ⟨init, b, a, _, hperm, hstep⟩ := huffStep_eq altb fresh ts h2
  have hmem : ∀ q ∈ (init ++ [b, a] : List NP), wfW q.1 = true := fun q hq =>
    hwf q (hperm.mem_iff.mp hq)
  rw [hstep]
  intro q hq
  rcases List.mem_append.mp hq with h | h
  · exact hmem q (List.mem_append.mpr (Or.inl h))
  · have hq1 : q = (merge a.1 b.1, fresh) := by simpa using h
    subst hq1
    exact wfW_merge a.1 b.1
      (hmem a (List.mem_append.mpr (Or.inr (by simp))))
      (hmem b (List.mem_append.mpr (Or.inr (by simp))))

/-! ### The `while` loop of `huffman` -/

theorem huffmanLoop_singleton (altb : Nat → Nat → Bool) :
    ∀ (fuel fresh : Nat) (x : NP), huffmanLoop altb fuel fresh [x] = [x] := by
  intro fuel fresh x
  cases fuel <;> simp [huffmanLoop]

theorem huffmanLoop_spec (altb : Nat → Nat → Bool) :
    ∀ (fuel fresh : Nat) (ts : List NP), ts ≠ [] → ts.length ≤ fuel + 1 →
      ∃ np, huffmanLoop altb fuel fresh ts = [np] ∧
        leafChars np.1 ~ forestChars ts ∧
        ((∀ q ∈ ts, wfW q.1 = true) → wfW np.1 = true) ∧
        (2 ≤ ts.length → ∃ w l r, np.1 = Node.node w l r) := by
  intro fuel
  induction fuel with
  | zero =>
    intro fresh ts hne hlen
    match ts, hne with
    | [np], _ =>
      refine ⟨np, rfl, ?_, fun h => h np (by simp), by intro h; simp at h⟩
      simp [forestChars]
    | np :: q :: rest, _ => simp at hlen
  | succ fuel ih =>
    intro fresh ts hne hlen
    by_cases hgt : 1 < ts.length
    · have h2 : 2 ≤ ts.length := hgt
      have hsl : (huffStep altb fresh ts).length + 1 = ts.length :=
        huffStep_length altb fresh ts h2
      have hsne : huffStep altb fresh ts ≠ [] := by
        have : 0 < (huffStep altb fresh ts).length := by omega
        exact List.ne_nil_of_length_pos this
      obtain ⟨np, h1, hperm, hwf, hnode⟩ :=
        ih (fresh + 1) (huffStep altb fresh ts) hsne (by omega)
      refine ⟨np, ?_, ?_, ?_, ?_⟩
      · rw [huffmanLoop, if_pos hgt]; exact h1
      · exact hperm.trans (huffStep_forest altb fresh ts h2)
      · intro h; exact hwf (huffStep_wf altb fresh ts h2 h)
      · intro _
        by_cases hs2 : 2 ≤ (huffStep altb fresh ts).length
        · exact hnode hs2
        · obtain ⟨init, b, a, _, hp, hstep⟩ := huffStep_eq altb fresh ts h2
          have hil : init.length + 2 = ts.length := by
            have := hp.length_eq; simpa using this
          have hslen : (huffStep altb fresh ts).length = init.length + 1 := by
            rw [hstep]; simp
          have hinit : init = [] := by
            have h0 : init.length = 0 := by omega
            exact List.length_eq_zero.mp h0
          have hone : huffStep altb fresh ts = [(merge a.1 b.1, fresh)] := by
            rw [hstep, hinit]; rfl
          rw [hone, huffmanLoop_singleton] at h1
          have hnp : np = (merge a.1 b.1, fresh) := by simpa using h1.symm
          exact ⟨weight a.1 + weight b.1, a.1, b.1, by rw [hnp]; rfl⟩
    · have h1 : ts.length = 1 := by
        have : 0 < ts.length := List.length_pos.mpr hne
        omega
      match ts, h1 with
      | [np], _ =>
        refine ⟨np, ?_, ?_, fun h => h np (by simp), by intro h; simp at h⟩
        · simp [huffmanLoop]
        · simp [forestChars]

/-- Top-level consequence for `huffman`. -/
theorem huffman_spec (altb : Nat → Nat → Bool) (ts : List NP) (hne : ts ≠ []) :
    ∃ t, huffman altb ts = some t ∧
      leafChars t ~ forestChars ts ∧
      ((∀ q ∈ ts, wfW q.1 = true) → wfW t = true) ∧
      (2 ≤ ts.length → ∃ w l r, t = Node.node w l r) := by
  obtain ⟨np, h1, h2, h3, h4⟩ :=
    huffmanLoop_spec altb ts.length ts.length ts hne (by omega)
  exact ⟨np.1, by simp [huffman, h1], h2, h3, h4⟩

/-! ### The code table as a finite map -/

theorem mapFind_mapInsert_self (c : Char) (v : List Char) :
    ∀ m : CodeTab, mapFind c (mapInsert c v m) = v := by
  intro m
  induction m with
  | nil => simp [mapInsert, mapFind]
  | cons kv t ih =>
    obtain ⟨k, u⟩ := kv
    by_cases hck : c = k
    · simp [mapInsert, hck, mapFind]
    · by_cases hlt : c < k
      · simp [mapInsert, hck, hlt, mapFind]
      · simp [mapInsert, hck, hlt, mapFind, ih]

theorem mapFind_mapInsert_ne (c k : Char) (v : List Char) (h : c ≠ k) :
    ∀ m : CodeTab, mapFind c (mapInsert k v m) = mapFind c m := by
  intro m
  induction m with
  | nil => simp [mapInsert, mapFind, h]
  | cons kv t ih =>
    obtain ⟨k1, u⟩ := kv
    by_cases hkk : k = k1
    · subst hkk; simp [mapInsert, mapFind, h]
    · by_cases hlt : k < k1
      · simp [mapInsert, hkk, hlt, mapFind, h]
      · by_cases hck : c = k1 <;> simp [mapInsert, hkk, hlt, mapFind, hck, ih]

theorem mem_keys_mapInsert (x c : Char) (v : List Char) :
    ∀ m : CodeTab, (x ∈ (mapInsert c v m).map Prod.fst ↔ x = c ∨ x ∈ m.map Prod.fst) := by
  intro m
  induction m with
  | nil => simp [mapInsert]
  | cons kv t ih =>
    obtain ⟨k1, u⟩ := kv
    by_cases hck : c = k1
    · subst hck; simp [mapInsert]
    · by_cases hlt : c < k1
      · simp [mapInsert, hck, hlt]
      · simp [mapInsert, hck, hlt, ih]; tauto

/-! ### Root-to-leaf paths -/

theorem pathOf_isSome_iff : ∀ (t : Node) (c : Char),
    (pathOf t c).isSome = true ↔ c ∈ leafChars t := by
  intro t
  induction t with
  | leaf c1 w =>
    intro c
    by_cases h : c = c1 <;> simp [pathOf, leafChars, h]
  | node w l r ihl ihr =>
    intro c
    cases hl : pathOf l c with
    | some p => simp [pathOf, hl, leafChars, ← ihl, ← ihr, Option.isSome]
    | none =>
      cases hr : pathOf r c with
      | some q => simp [pathOf, hl, hr, leafChars, ← ihl, ← ihr, Option.isSome]
      | none => simp [pathOf, hl, hr, leafChars, ← ihl, ← ihr, Option.isSome]

theorem pathOf_node_ne_nil (w : Nat) (l r : Node) (c : Char) (p : List Char)
    (hp : pathOf (Node.node w l r) c = some p) : p ≠ [] := by
  cases hl : pathOf l c with
  | some q => simp [pathOf, hl] at hp; simp [← hp]
  | none =>
    cases hr : pathOf r c with
    | some q => simp [pathOf, hl, hr] at hp; simp [← hp]
    | none => simp [pathOf, hl, hr] at hp

/-- Walking the recorded path of a symbol from the root lands exactly on
that symbol's leaf and consumes exactly the path. -/
theorem decodeSym_path : ∀ (t : Node) (c : Char) (p : List Char),
    pathOf t c = some p → ∀ rest, decodeSym t (p ++ rest) = some (c, rest) := by
  intro t
  induction t with
  | leaf c1 w =>
    intro c p hp rest
    by_cases h : c = c1
    · subst h
      simp [pathOf] at hp
      simp [← hp, decodeSym]
    · simp [pathOf, h] at hp
  | node w l r ihl ihr =>
    intro c p hp rest
    cases hl : pathOf l c with
    | some q =>
      simp [pathOf, hl] at hp
      subst hp
      simpa [decodeSym] using ihl c q hl rest
    | none =>
      cases hr : pathOf r c with
      | some q =>
        simp [pathOf, hl, hr] at hp
        subst hp
        have h10 : ('1' : Char) ≠ '0' := by decide
        simpa [decodeSym, h10] using ihr c q hr rest
      | none => simp [pathOf, hl, hr] at hp

/-- Two recorded paths where one is a prefix of the other belong to the same
symbol: root-to-leaf paths are mutually prefix-incomparable. -/
theorem pathOf_eq_of_pref : ∀ (t : Node) (a b : Char) (p q : List Char),
    pathOf t a = some p → pathOf t b = some q → p <+: q → a = b := by
  intro t
  induction t with
  | leaf c1 w =>
    intro a b p q hp hq _
    by_cases ha : a = c1
    · by_cases hb : b = c1
      · rw [ha, hb]
      · simp [pathOf, hb] at hq
    · simp [pathOf, ha] at hp
  | node w l r ihl ihr =>
    intro a b p q hp hq hpre
    cases hla : pathOf l a with
    | some pa =>
      cases hlb : pathOf l b with
      | some pb =>
        simp [pathOf, hla] at hp
        simp [pathOf, hlb] at hq
        subst hp; subst hq
        obtain ⟨-, hpre1⟩ := List.cons_prefix_cons.mp hpre
        exact ihl a b pa pb hla hlb hpre1
      | none =>
        cases hrb : pathOf r b with
        | some qb =>
          simp [pathOf, hla] at hp
          simp [pathOf, hlb, hrb] at hq
          subst hp; subst hq
          obtain ⟨h01, -⟩ := List.cons_prefix_cons.mp hpre
          exact absurd h01 (by decide)
        | none => simp [pathOf, hlb, hrb] at hq
    | none =>
      cases hra : pathOf r a with
      | some qa =>
        cases hlb : pathOf l b with
        | some pb =>
          simp [pathOf, hla, hra] at hp
          simp [pathOf, hlb] at hq
          subst hp; subst hq
          obtain ⟨h10, -⟩ := List.cons_prefix_cons.mp hpre
          exact absurd h10 (by decide)
        | none =>
          cases hrb : pathOf r b with
          | some qb =>
            simp [pathOf, hla, hra] at hp
            simp [pathOf, hlb, hrb] at hq
            subst hp; subst hq
            obtain ⟨-, hpre1⟩ := List.cons_prefix_cons.mp hpre
            exact ihr a b qa qb hra hrb hpre1
          | none => simp [pathOf, hlb, hrb] at hq
      | none => simp [pathOf, hla, hra] at hp

/-! ### `codetab` records exactly the root-to-leaf paths -/

theorem mapFind_codetab_notmem : ∀ (t : Node) (c : Char), c ∉ leafChars t →
    ∀ (pre : List Char) (codes : CodeTab),
      mapFind c (codetab t pre codes) = mapFind c codes := by
  intro t
  induction t with
  | leaf c1 w =>
    intro c hc pre codes
    have hne : c ≠ c1 := by simpa [leafChars] using hc
    simpa [codetab] using mapFind_mapInsert_ne c c1 pre hne codes
  | node w l r ihl ihr =>
    intro c hc pre codes
    have hcl : c ∉ leafChars l := fun h => hc (by simp [leafChars, h])
    have hcr : c ∉ leafChars r := fun h => hc (by simp [leafChars, h])
    simp [codetab, ihr c hcr, ihl c hcl]

theorem mapFind_codetab : ∀ (t : Node), (leafChars t).Nodup →
    ∀ (c : Char) (p : List Char), pathOf t c = some p →
    ∀ (pre : List Char) (codes : CodeTab),
      mapFind c (codetab t pre codes) = pre ++ p := by
  intro t
  induction t with
  | leaf c1 w =>
    intro _ c p hp pre codes
    by_cases h : c = c1
    · subst h
      simp [pathOf] at hp
      simp [codetab, ← hp, mapFind_mapInsert_self]
    · simp [pathOf, h] at hp
  | node w l r ihl ihr =>
    intro hnd c p hp pre codes
    rw [leafChars, List.nodup_append] at hnd
    obtain ⟨hndl, hndr, hdisj⟩ := hnd
    cases hl : pathOf l c with
    | some q =>
      simp [pathOf, hl] at hp
      subst hp
      have hcl : c ∈ leafChars l := (pathOf_isSome_iff l c).mp (by simp [hl])
      have hcr : c ∉ leafChars r := fun h => hdisj hcl h
      rw [codetab, mapFind_codetab_notmem r c hcr, ihl hndl c q hl]
      simp
    | none =>
      cases hr : pathOf r c with
      | some q =>
        simp [pathOf, hl, hr] at hp
        subst hp
        rw [codetab, ihr hndr c q hr]
        simp
      | none => simp [pathOf, hl, hr] at hp

theorem mem_keys_codetab : ∀ (t : Node) (pre : List Char) (codes : CodeTab) (x : Char),
    x ∈ (codetab t pre codes).map Prod.fst ↔
      x ∈ leafChars t ∨ x ∈ codes.map Prod.fst := by
  intro t
  induction t with
  | leaf c1 w =>
    intro pre codes x
    rw [codetab, mem_keys_mapInsert x c1 pre codes]
    simp [leafChars]
  | node w l r ihl ihr =>
    intro pre codes x
    simp [codetab, leafChars, ihr, ihl]
    tauto

/-! ### `encode` as concatenation of per-symbol codes -/

theorem foldl_append_eq (f : Char → List Char) :
    ∀ (w : List Char) (acc : List Char),
      w.foldl (fun bits c => bits ++ f c) acc = acc ++ (w.map f).flatten := by
  intro w
  induction w with
  | nil => intro acc; simp
  | cons c w ih => intro acc; simp [ih]

theorem encode_eq_flatten (codes : CodeTab) (w : List Char) :
    encode codes w = (w.map (fun c => mapFind c codes)).flatten := by
  simpa [encode] using foldl_append_eq (fun c => mapFind c codes) w []

/-! ### `decode` inverts concatenation of complete codes -/

theorem length_le_length_flatten : ∀ (L : List (List Char)),
    (∀ x ∈ L, x ≠ []) → L.length ≤ L.flatten.length := by
  intro L
  induction L with
  | nil => intro _; simp
  | cons x L ih =>
    intro h
    have hx : x ≠ [] := h x (by simp)
    have hx1 : 1 ≤ x.length := by
      cases x with
      | nil => exact absurd rfl hx
      | cons y ys => simp
    have := ih fun z hz => h z (by simp [hz])
    simp only [List.length_cons, List.flatten_cons, List.length_append]
    omega

theorem decodeLoop_emits (root : Node) (f : Char → List Char) :
    ∀ (cs : List Char) (fuel : Nat), cs.length ≤ fuel →
      (∀ c ∈ cs, f c ≠ [] ∧ ∀ rest, decodeSym root (f c ++ rest) = some (c, rest)) →
      decodeLoop root fuel ((cs.map f).flatten) = some cs := by
  intro cs
  induction cs with
  | nil =>
    intro fuel _ _
    cases fuel <;> simp [decodeLoop]
  | cons c cs ih =>
    intro fuel hfuel h
    obtain ⟨hne, hds⟩ := h c (by simp)
    have hcs : ∀ x ∈ cs, f x ≠ [] ∧ ∀ rest, decodeSym root (f x ++ rest) = some (x, rest) :=
      fun x hx => h x (by simp [hx])
    cases fuel with
    | zero => simp at hfuel
    | succ g =>
      have hg : cs.length ≤ g := by simpa using hfuel
      obtain ⟨b, bs, hfc⟩ : ∃ b bs, f c = b :: bs := by
        cases hv : f c with
        | nil => exact absurd hv hne
        | cons b bs => exact ⟨b, bs, rfl⟩
      have hsym : decodeSym root (b :: (bs ++ (cs.map f).flatten)) =
          some (c, (cs.map f).flatten) := by
        rw [← List.cons_append, ← hfc]
        exact hds ((cs.map f).flatten)
      simp only [List.map_cons, List.flatten_cons, hfc, List.cons_append]
      rw [decodeLoop, hsym]
      show Option.map (fun cs => c :: cs) (decodeLoop root g ((cs.map f).flatten)) =
        some (c :: cs)
      rw [ih g hg hcs]
      rfl

/-! ### The histogram: sorted keys, hence distinct symbols -/

theorem mem_keys_histInsert (x c : Char) :
    ∀ h : List (Char × Nat),
      (x ∈ (histInsert c h).map Prod.fst ↔ x = c ∨ x ∈ h.map Prod.fst) := by
  intro h
  induction h with
  | nil => simp [histInsert]
  | cons kv t ih =>
    obtain ⟨k, v⟩ := kv
    by_cases hck : c = k
    · subst hck; simp [histInsert]
    · by_cases hlt : c < k
      · simp [histInsert, hck, hlt]
      · simp [histInsert, hck, hlt, ih]; tauto

theorem keys_histInsert_sorted (c : Char) :
    ∀ h : List (Char × Nat), (h.map Prod.fst).Pairwise (· < ·) →
      ((histInsert c h).map Prod.fst).Pairwise (· < ·) := by
  intro h
  induction h with
  | nil => simp [histInsert]
  | cons kv t ih =>
    obtain ⟨k, v⟩ := kv
    intro hs
    rw [List.map_cons, List.pairwise_cons] at hs
    obtain ⟨hk, hts⟩ := hs
    by_cases hck : c = k
    · subst hck
      have he : histInsert c ((c, v) :: t) = (c, v + 1) :: t := by simp [histInsert]
      rw [he, List.map_cons, List.pairwise_cons]
      exact ⟨hk, hts⟩
    · by_cases hlt : c < k
      · simp only [histInsert, if_neg hck, if_pos hlt]
        rw [List.map_cons, List.pairwise_cons]
        refine ⟨?_, ?_⟩
        · intro y hy
          rcases (by simpa using hy : y = k ∨ y ∈ t.map Prod.fst) with h1 | h1
          · rw [h1]; exact hlt
          · exact lt_trans hlt (hk y h1)
        · rw [List.map_cons, List.pairwise_cons]
          exact ⟨hk, hts⟩
      · have hkc : k < c := by
          rcases lt_trichotomy c k with h1 | h1 | h1
          · exact absurd h1 hlt
          · exact absurd h1 hck
          · exact h1
        simp only [histInsert, if_neg hck, if_neg hlt]
        rw [List.map_cons, List.pairwise_cons]
        refine ⟨?_, ih hts⟩
        intro y hy
        rcases (mem_keys_histInsert y c t).mp hy with h1 | h1
        · rw [h1]; exact hkc
        · exact hk y h1

theorem foldl_hist_sorted : ∀ (S : List Char) (h : List (Char × Nat)),
    (h.map Prod.fst).Pairwise (· < ·) →
    (((S.foldl (fun h c => histInsert c h) h).map Prod.fst)).Pairwise (· < ·) := by
  intro S
  induction S with
  | nil => intro h hs; exact hs
  | cons c S ih => intro h hs; exact ih (histInsert c h) (keys_histInsert_sorted c h hs)

theorem mem_keys_foldl_hist : ∀ (S : List Char) (h : List (Char × Nat)) (x : Char),
    x ∈ (S.foldl (fun h c => histInsert c h) h).map Prod.fst ↔
      x ∈ S ∨ x ∈ h.map Prod.fst := by
  intro S
  induction S with
  | nil => intro h x; simp
  | cons c S ih =>
    intro h x
    rw [List.foldl_cons, ih (histInsert c h) x, mem_keys_histInsert x c h]
    simp
    tauto

theorem freq_keys_sorted (S : List Char) :
    ((freq S).map Prod.fst).Pairwise (· < ·) :=
  foldl_hist_sorted S [] (by simp)

theorem freq_keys_nodup (S : List Char) : ((freq S).map Prod.fst).Nodup :=
  (freq_keys_sorted S).imp ne_of_lt

theorem mem_freq_keys (S : List Char) (x : Char) :
    x ∈ (freq S).map Prod.fst ↔ x ∈ S := by
  rw [freq, mem_keys_foldl_hist S [] x]
  simp

/-! ### `nodes` produces one leaf per histogram entry -/

theorem nodesFrom_length : ∀ (h : List (Char × Nat)) (i : Nat),
    (nodesFrom i h).length = h.length := by
  intro h
  induction h with
  | nil => intro i; rfl
  | cons kv t ih => obtain ⟨c, wt⟩ := kv; intro i; simp [nodesFrom, ih]

theorem nodesFrom_forest : ∀ (h : List (Char × Nat)) (i : Nat),
    forestChars (nodesFrom i h) = h.map Prod.fst := by
  intro h
  induction h with
  | nil => intro i; rfl
  | cons kv t ih =>
    obtain ⟨c, wt⟩ := kv
    intro i
    simp [nodesFrom, forestChars, leafChars] at ih ⊢
    exact ih (i + 1)

theorem nodesFrom_wf : ∀ (h : List (Char × Nat)) (i : Nat),
    ∀ q ∈ nodesFrom i h, wfW q.1 = true := by
  intro h
  induction h with
  | nil => intro i q hq; simp [nodesFrom] at hq
  | cons kv t ih =>
    obtain ⟨c, wt⟩ := kv
    intro i q hq
    rcases (by simpa [nodesFrom] using hq :
        q = (Node.leaf c wt, i) ∨ q ∈ nodesFrom (i + 1) t) with h1 | h1
    · rw [h1]; rfl
    · exact ih (i + 1) q h1

/-- A list with two distinct members has length at least two. -/
theorem two_le_length_of_two_mem {l : List Char} {a b : Char}
    (ha : a ∈ l) (hb : b ∈ l) (hab : a ≠ b) : 2 ≤ l.length := by
  match l with
  | [] => simp at ha
  | [x] =>
    have h1 : a = x := by simpa using ha
    have h2 : b = x := by simpa using hb
    exact absurd (h1.trans h2.symm) hab
  | x :: y :: t => simp

/-- A single-symbol text has a one-entry histogram. -/
theorem foldl_hist_const : ∀ (S : List Char) (c : Char) (n : Nat),
    (∀ x ∈ S, x = c) →
    S.foldl (fun h x => histInsert x h) [(c, n)] = [(c, n + S.length)] := by
  intro S
  induction S with
  | nil => intro c n _; simp
  | cons x S ih =>
    intro c n hall
    have hx : x = c := hall x (by simp)
    subst hx
    rw [List.foldl_cons]
    have h1 : histInsert x [(x, n)] = [(x, n + 1)] := by simp [histInsert]
    rw [h1, ih x (n + 1) fun y hy => hall y (by simp [hy])]
    simp
    omega

theorem freq_const (S : List Char) (c : Char) (hne : S ≠ [])
    (hall : ∀ x ∈ S, x = c) : freq S = [(c, S.length)] := by
  cases S with
  | nil => exact absurd rfl hne
  | cons x S =>
    have hx : x = c := hall x (by simp)
    subst hx
    rw [freq, List.foldl_cons]
    have h1 : histInsert x [] = [(x, 1)] := rfl
    rw [h1, foldl_hist_const S x 1 fun y hy => hall y (by simp [hy])]
    simp
    omega

/-! ### The full pipeline on a histogram with distinct symbols -/

theorem pipeline_spec (altb : Nat → Nat → Bool) (hist : List (Char × Nat))
    (hnd : (hist.map Prod.fst).Nodup) (hne : hist ≠ []) :
    ∃ t, huffman altb (nodes hist) = some t ∧
      (leafChars t).Nodup ∧
      leafChars t ~ hist.map Prod.fst ∧
      (2 ≤ hist.length → ∃ w l r, t = Node.node w l r) := by
  have hlen : (nodes hist).length = hist.length := nodesFrom_length hist 0
  have hne2 : nodes hist ≠ [] := by
    have h0 : 0 < (nodes hist).length := by
      rw [hlen]; exact List.length_pos.mpr hne
    exact List.ne_nil_of_length_pos h0
  obtain ⟨t, h1, h2, _, h4⟩ := huffman_spec altb (nodes hist) hne2
  rw [nodes, nodesFrom_forest hist 0] at h2
  exact ⟨t, h1, (h2.nodup_iff).mpr hnd, h2, fun h2le => h4 (by omega)⟩

/-! ### The claims -/

/-- C1, amended round-trip: for every memory layout `altb` and every symbol
sequence `S` containing at least two distinct symbols, decoding the encoding
of `S` through the pipeline recovers `S` exactly.  (The original claim over
all non-empty sequences fails on single-symbol inputs, whose code is empty —
see the counterexample.) -/
theorem huffman_roundtrip (altb : Nat → Nat → Bool) (S : List Char) (a b : Char)
    (ha : a ∈ S) (hb : b ∈ S) (hab : a ≠ b) :
    ∃ t, huffman altb (nodes (freq S)) = some t ∧
      decode t (encode (codetable t) S) = some S := by
  have hka : a ∈ (freq S).map Prod.fst := (mem_freq_keys S a).mpr ha
  have hkb : b ∈ (freq S).map Prod.fst := (mem_freq_keys S b).mpr hb
  have hklen : 2 ≤ ((freq S).map Prod.fst).length :=
    two_le_length_of_two_mem hka hkb hab
  have hflen : 2 ≤ (freq S).length := by simpa using hklen
  have hfne : freq S ≠ [] := by
    intro h; rw [h] at hflen; simp at hflen
  obtain ⟨t, hsome, hnd, hperm, hnode⟩ :=
    pipeline_spec altb (freq S) (freq_keys_nodup S) hfne
  obtain ⟨w0, l0, r0, ht⟩ := hnode hflen
  refine ⟨t, hsome, ?_⟩
  have hmem : ∀ c ∈ S, c ∈ leafChars t := fun c hc =>
    hperm.mem_iff.mpr ((mem_freq_keys S c).mpr hc)
  have hprops : ∀ c ∈ S, (fun c => mapFind c (codetable t)) c ≠ [] ∧
      ∀ rest, decodeSym t ((fun c => mapFind c (codetable t)) c ++ rest) =
        some (c, rest) := by
    intro c hc
    have hps : (pathOf t c).isSome = true := (pathOf_isSome_iff t c).mpr (hmem c hc)
    obtain ⟨p, hp⟩ := Option.isSome_iff_exists.mp hps
    have hfind : mapFind c (codetable t) = p := by
      have h := mapFind_codetab t hnd c p hp [] []
      simpa [codetable] using h
    constructor
    · show mapFind c (codetable t) ≠ []
      rw [hfind]
      exact pathOf_node_ne_nil w0 l0 r0 c p (ht ▸ hp)
    · intro rest
      show decodeSym t (mapFind c (codetable t) ++ rest) = some (c, rest)
      rw [hfind]
      exact decodeSym_path t c p hp rest
  rw [encode_eq_flatten, decode]
  apply decodeLoop_emits t (fun c => mapFind c (codetable t)) S _ _ hprops
  have hlf : (S.map fun c => mapFind c (codetable t)).length ≤
      ((S.map fun c => mapFind c (codetable t)).flatten).length := by
    apply length_le_length_flatten
    intro x hx
    obtain ⟨c, hc, hxc⟩ := List.mem_map.mp hx
    rw [← hxc]
    exact (hprops c hc).1
  simpa using hlf

/-- C1 witness: the round trip on the two-symbol input `"ab"`. -/
theorem huffman_roundtrip_witness :
    ∃ t, huffman altbF (nodes (freq ['a', 'b'])) = some t ∧
      decode t (encode (codetable t) ['a', 'b']) = some ['a', 'b'] :=
  huffman_roundtrip altbF ['a', 'b'] 'a' 'b' (by decide) (by decide) (by decide)

/-- C1 counterexample: on the single-symbol input `"aa"` the pipeline builds
the one-leaf tree, the code of `'a'` is the empty bit-string, so the encoding
is empty and decoding it yields the empty sequence — not `"aa"`.  The claimed
round-trip over all non-empty sequences is false. -/
theorem roundtrip_fails_on_single_symbol :
    huffman altbF (nodes (freq ['a', 'a'])) = some (Node.leaf 'a' 2) ∧
    decode (Node.leaf 'a' 2) (encode (codetable (Node.leaf 'a' 2)) ['a', 'a']) =
      some [] ∧
    some ([] : List Char) ≠ some ['a', 'a'] :=
  ⟨rfl, rfl, by decide⟩

/-- C2: the merge candidates are chosen by comparing `Node*` pointers, so the
selection depends on the memory layout, not on the weight fields.  With
leaves `a:1, b:2, c:3` and decreasing allocation addresses the first merge
combines the weight-3 and weight-2 nodes (the deepest internal node of the
result) instead of the two smallest weights 1 and 2; with increasing
addresses the very same input merges 1 and 2 first.  The selection is neither
by smallest weights nor independent of pointer identity. -/
theorem huffman_selection_address_dependent :
    huffman altbRev (nodes (freq ['a', 'b', 'b', 'c', 'c', 'c'])) =
      some (Node.node 6 (Node.node 5 (Node.leaf 'c' 3) (Node.leaf 'b' 2))
        (Node.leaf 'a' 1)) ∧
    huffman altbFwd (nodes (freq ['a', 'b', 'b', 'c', 'c', 'c'])) =
      some (Node.node 6 (Node.node 3 (Node.leaf 'a' 1) (Node.leaf 'b' 2))
        (Node.leaf 'c' 3)) :=
  ⟨rfl, rfl⟩

/-- C3: under the decreasing-address layout the tree built for the weights
`{a:1, b:2, c:3}` has weighted path length 11, while a binary tree over the
same leaves (exhibited explicitly) achieves 9 — the built tree does not
minimise the total weighted path length. -/
theorem huffman_suboptimal_wpl :
    huffman altbRev (nodes (freq ['a', 'b', 'b', 'c', 'c', 'c'])) =
      some (Node.node 6 (Node.node 5 (Node.leaf 'c' 3) (Node.leaf 'b' 2))
        (Node.leaf 'a' 1)) ∧
    wpl (Node.node 6 (Node.node 5 (Node.leaf 'c' 3) (Node.leaf 'b' 2))
      (Node.leaf 'a' 1)) = 11 ∧
    leafCW (Node.node 6 (Node.node 3 (Node.leaf 'a' 1) (Node.leaf 'b' 2))
      (Node.leaf 'c' 3)) ~
      leafCW (Node.node 6 (Node.node 5 (Node.leaf 'c' 3) (Node.leaf 'b' 2))
        (Node.leaf 'a' 1)) ∧
    wpl (Node.node 6 (Node.node 3 (Node.leaf 'a' 1) (Node.leaf 'b' 2))
      (Node.leaf 'c' 3)) = 9 :=
  ⟨rfl, rfl, by decide, rfl⟩

/-- `mapFind` of a key that is not in the table is the empty bit-string. -/
theorem mapFind_eq_nil_of_notmem (c : Char) :
    ∀ tbl : CodeTab, c ∉ tbl.map Prod.fst → mapFind c tbl = [] := by
  intro tbl
  induction tbl with
  | nil => intro _; rfl
  | cons kv t ih =>
    obtain ⟨k, v⟩ := kv
    intro hc
    have hck : c ≠ k := fun h => hc (by simp [h])
    rw [mapFind, if_neg hck]
    exact ih fun h => hc (by simp [h])

/-- C4, amended: `encode` never fails.  `codes[*it]` on a `std::map`
default-constructs an empty string for a missing key, so a symbol with no
table entry contributes nothing to the output: the result is the
concatenation of the codes of the symbols that are in the table. -/
theorem encode_skips_unknown (tbl : CodeTab) (c : Char)
    (hc : c ∉ tbl.map Prod.fst) (w1 w2 : List Char) :
    encode tbl (w1 ++ c :: w2) = encode tbl (w1 ++ w2) := by
  have hfind : mapFind c tbl = [] := mapFind_eq_nil_of_notmem c tbl hc
  rw [encode_eq_flatten, encode_eq_flatten]
  simp [hfind]

/-- C4 witness: dropping the unknown symbol `'c'` does not change the bits. -/
theorem encode_skips_unknown_witness :
    encode [('a', ['0']), ('b', ['1'])] (['a'] ++ 'c' :: ['b']) =
      encode [('a', ['0']), ('b', ['1'])] (['a'] ++ ['b']) :=
  encode_skips_unknown [('a', ['0']), ('b', ['1'])] 'c' (by decide) ['a'] ['b']

/-- C4 counterexample: encoding `"abc"` with the table of the `{a, b}` tree
does not fail with an unknown-symbol error — it returns the bit-string
`"01"`, silently skipping `'c'`. -/
theorem encode_unknown_returns_bits :
    encode (codetable (Node.node 2 (Node.leaf 'a' 1) (Node.leaf 'b' 1)))
      ['a', 'b', 'c'] = ['0', '1'] := rfl

/-- C5, amended: `decode` validates nothing.  At an internal node any byte
other than `'0'` selects the right child exactly as `'1'` does, and
exhausting the bits at an internal node is an out-of-bounds `*it++`
(undefined behavior, modeled by `none`), not a reported error; a successful
decode consumes the entire bit-string by construction of the loop. -/
theorem decode_no_validation (w : Nat) (l r : Node) (b : Char) (bs : List Char)
    (hb : b ≠ '0') :
    decodeSym (Node.node w l r) (b :: bs) = decodeSym r bs ∧
    decodeSym (Node.node w l r) [] = none := by
  constructor
  · simp [decodeSym, hb]
  · rfl

/-- C5 witness: the byte `'2'` descends right, and empty bits at an internal
node give no result. -/
theorem decode_no_validation_witness :
    decodeSym (Node.node 2 (Node.leaf 'a' 1) (Node.leaf 'b' 1)) ['2'] =
      decodeSym (Node.leaf 'b' 1) [] ∧
    decodeSym (Node.node 2 (Node.leaf 'a' 1) (Node.leaf 'b' 1)) [] = none :=
  decode_no_validation 2 (Node.leaf 'a' 1) (Node.leaf 'b' 1) '2' [] (by decide)

/-- C5 counterexample: decoding the bit-string `"2"` — whose byte is neither
`'0'` nor `'1'` — against the `{a, b}` tree succeeds with `"b"` instead of
failing with a malformed-bit-string error. -/
theorem decode_accepts_nonbinary_byte :
    decode (Node.node 2 (Node.leaf 'a' 1) (Node.leaf 'b' 1)) ['2'] =
      some ['b'] := rfl

/-- C6: `huffman` performs no emptiness check and signals no construction
error: on an empty collection the loop is skipped and `ts.front()` is
executed on an empty vector — undefined behavior, modeled by `none`. -/
theorem huffman_empty_no_error : huffman altbF [] = none := rfl

/-- C7: prefix-freeness.  For every memory layout, every non-empty histogram
with distinct symbols and every pair of distinct symbols present in the code
table of the built tree, neither code is a prefix of the other. -/
theorem codetable_prefix_free (altb : Nat → Nat → Bool) (hist : List (Char × Nat))
    (hnd : (hist.map Prod.fst).Nodup) (hne : hist ≠ []) (t : Node)
    (ht : huffman altb (nodes hist) = some t) (a b : Char) (hab : a ≠ b)
    (haT : a ∈ (codetable t).map Prod.fst) (hbT : b ∈ (codetable t).map Prod.fst) :
    ¬ mapFind a (codetable t) <+: mapFind b (codetable t) ∧
    ¬ mapFind b (codetable t) <+: mapFind a (codetable t) := by
  obtain ⟨t2, ht2, hnd2, hperm, _⟩ := pipeline_spec altb hist hnd hne
  rw [ht] at ht2
  have htt : t2 = t := Option.some.inj ht2.symm
  subst htt
  have haL : a ∈ leafChars t2 := by
    have h := (mem_keys_codetab t2 [] [] a).mp (by simpa [codetable] using haT)
    simpa using h
  have hbL : b ∈ leafChars t2 := by
    have h := (mem_keys_codetab t2 [] [] b).mp (by simpa [codetable] using hbT)
    simpa using h
  obtain ⟨pa, hpa⟩ :=
    Option.isSome_iff_exists.mp ((pathOf_isSome_iff t2 a).mpr haL)
  obtain ⟨pb, hpb⟩ :=
    Option.isSome_iff_exists.mp ((pathOf_isSome_iff t2 b).mpr hbL)
  have hfa : mapFind a (codetable t2) = pa := by
    simpa [codetable] using mapFind_codetab t2 hnd2 a pa hpa [] []
  have hfb : mapFind b (codetable t2) = pb := by
    simpa [codetable] using mapFind_codetab t2 hnd2 b pb hpb [] []
  constructor
  · intro hpre
    rw [hfa, hfb] at hpre
    exact hab (pathOf_eq_of_pref t2 a b pa pb hpa hpb hpre)
  · intro hpre
    rw [hfa, hfb] at hpre
    exact hab (pathOf_eq_of_pref t2 b a pb pa hpb hpa hpre).symm

/-- C7 witness: the two codes of the tree built from `{a:1, b:2}` are
mutually prefix-incomparable. -/
theorem codetable_prefix_free_witness :
    ¬ mapFind 'a' (codetable (Node.node 3 (Node.leaf 'b' 2) (Node.leaf 'a' 1))) <+:
        mapFind 'b' (codetable (Node.node 3 (Node.leaf 'b' 2) (Node.leaf 'a' 1))) ∧
    ¬ mapFind 'b' (codetable (Node.node 3 (Node.leaf 'b' 2) (Node.leaf 'a' 1))) <+:
        mapFind 'a' (codetable (Node.node 3 (Node.leaf 'b' 2) (Node.leaf 'a' 1))) :=
  codetable_prefix_free altbF [('a', 1), ('b', 2)] (by decide) (by decide)
    (Node.node 3 (Node.leaf 'b' 2) (Node.leaf 'a' 1)) rfl 'a' 'b' (by decide)
    (by decide) (by decide)

/-- C8: structural invariants.  For every memory layout and every non-empty
collection of weight-well-formed nodes, `huffman` returns a tree (leaf, or
internal with exactly two children by construction of `Node`) in which every
internal node weighs the sum of its children, whose leaf symbols are a
permutation of the input forest's leaf symbols — so when the input symbols
are distinct, each appears in exactly one leaf. -/
theorem huffman_invariants (altb : Nat → Nat → Bool) (ts : List NP) (hne : ts ≠ [])
    (hwf : ∀ q ∈ ts, wfW q.1 = true) :
    ∃ t, huffman altb ts = some t ∧ wfW t = true ∧
      leafChars t ~ forestChars ts ∧
      ((forestChars ts).Nodup → ∀ c ∈ forestChars ts, (leafChars t).count c = 1) := by
  obtain ⟨t, h1, hperm, hwfi, _⟩ := huffman_spec altb ts hne
  refine ⟨t, h1, hwfi hwf, hperm, ?_⟩
  intro hndF c hc
  rw [hperm.count_eq]
  exact List.count_eq_one_of_mem hndF hc

/-- C8 witness: the invariants on the two-leaf input built from `"ab"`. -/
theorem huffman_invariants_witness :
    ∃ t, huffman altbF (nodes (freq ['a', 'b'])) = some t ∧ wfW t = true ∧
      leafChars t ~ forestChars (nodes (freq ['a', 'b'])) ∧
      ((forestChars (nodes (freq ['a', 'b']))).Nodup →
        ∀ c ∈ forestChars (nodes (freq ['a', 'b'])),
          (leafChars t).count c = 1) :=
  huffman_invariants altbF (nodes (freq ['a', 'b'])) (by decide) (by decide)

/-- C9, amended: a non-empty single-symbol input produces the one-leaf tree;
the code of the symbol is the EMPTY bit-string (not a single bit), so the
encoding is empty and decoding it returns the empty sequence: the round trip
yields the empty sequence, not the input. -/
theorem huffman_single_symbol (altb : Nat → Nat → Bool) (c : Char) (S : List Char)
    (hne : S ≠ []) (hall : ∀ x ∈ S, x = c) :
    huffman altb (nodes (freq S)) = some (Node.leaf c S.length) ∧
    codetable (Node.leaf c S.length) = [(c, [])] ∧
    encode (codetable (Node.leaf c S.length)) S = [] ∧
    decode (Node.leaf c S.length) (encode (codetable (Node.leaf c S.length)) S) =
      some [] := by
  have hfreq : freq S = [(c, S.length)] := freq_const S c hne hall
  have hn : nodes (freq S) = [(Node.leaf c S.length, 0)] := by rw [hfreq]; rfl
  have htab : codetable (Node.leaf c S.length) = [(c, [])] := rfl
  have henc : encode (codetable (Node.leaf c S.length)) S = [] := by
    rw [encode_eq_flatten]
    have hmap : S.map (fun x => mapFind x (codetable (Node.leaf c S.length))) =
        S.map (fun _ => ([] : List Char)) := by
      apply List.map_congr_left
      intro x hx
      rw [hall x hx, htab]
      simp [mapFind]
    rw [hmap]
    simp
  refine ⟨?_, htab, henc, ?_⟩
  · rw [hn]; rfl
  · rw [henc]; rfl

/-- C9 witness: the degenerate pipeline on `"aaa"`. -/
theorem huffman_single_symbol_witness :
    huffman altbF (nodes (freq ['a', 'a', 'a'])) =
      some (Node.leaf 'a' (['a', 'a', 'a'] : List Char).length) ∧
    codetable (Node.leaf 'a' (['a', 'a', 'a'] : List Char).length) = [('a', [])] ∧
    encode (codetable (Node.leaf 'a' (['a', 'a', 'a'] : List Char).length))
      ['a', 'a', 'a'] = [] ∧
    decode (Node.leaf 'a' (['a', 'a', 'a'] : List Char).length)
      (encode (codetable (Node.leaf 'a' (['a', 'a', 'a'] : List Char).length))
        ['a', 'a', 'a']) = some [] :=
  huffman_single_symbol altbF 'a' ['a', 'a', 'a'] (by decide) (by decide)

/-- C9 counterexample: on the single-symbol input `"a"` the tree is one leaf
and its code is empty, but the round trip yields the empty sequence rather
than reproducing the input, refuting the claim that encode/decode
round-trips correctly on a degenerate alphabet. -/
theorem single_symbol_roundtrip_loses_input :
    huffman altbF (nodes (freq ['a'])) = some (Node.leaf 'a' 1) ∧
    mapFind 'a' (codetable (Node.leaf 'a' 1)) = [] ∧
    decode (Node.leaf 'a' 1) (encode (codetable (Node.leaf 'a' 1)) ['a']) =
      some [] ∧
    some ([] : List Char) ≠ some ['a'] :=
  ⟨rfl, rfl, rfl, by decide⟩

/-- C10: termination.  Whenever more than one node remains, one iteration of
the loop body removes exactly one node (two merged into one inserted), and on
every non-empty input `huffman` returns a single tree. -/
theorem huffman_terminates (altb : Nat → Nat → Bool) (fresh : Nat) (ts : List NP)
    (hne : ts ≠ []) :
    (1 < ts.length → (huffStep altb fresh ts).length + 1 = ts.length) ∧
    ∃ t, huffman altb ts = some t := by
  constructor
  · intro h; exact huffStep_length altb fresh ts h
  · obtain ⟨t, h1, -, -, -⟩ := huffman_spec altb ts hne
    exact ⟨t, h1⟩

/-- C10 witness: the step on a three-leaf input removes exactly one node and
the loop returns a tree. -/
theorem huffman_terminates_witness :
    (1 < (nodes (freq ['a', 'b', 'b'])).length →
      (huffStep altbF 2 (nodes (freq ['a', 'b', 'b']))).length + 1 =
        (nodes (freq ['a', 'b', 'b'])).length) ∧
    ∃ t, huffman altbF (nodes (freq ['a', 'b', 'b'])) = some t :=
  huffman_terminates altbF 2 (nodes (freq ['a', 'b', 'b'])) (by decide)

end Huffman
